import Mathlib

/-!
Verification of the backon retry library against its specification.

The crate root (`src/lib.rs`) declares the modules `backoff`, `retry`,
`retry_with_context`, `sleep`, `blocking_retry` and
`blocking_retry_with_context`, but only the root file is present in the
sources.  The backoff policies and the retry drivers are therefore modelled
from the specification (sections 3, 4.1, 4.2, 4.3, 7, 8 of the spec), with
durations as natural numbers (an abstract time unit) and the jitter entropy
source as an explicit argument, as the spec's design notes direct.
-/

/-- Modelled from the spec: jitter applies a uniform random multiplier in
`[0, 1]` to the computed delay, so the jittered delay lies in
`[0, computed]`.  The multiplier is represented as the rational
`min num den / den` supplied by the injected entropy source. -/
def applyJitter (d num den : Nat) : Nat :=
  d * min num den / den

/-- Modelled from the spec: an optional maximum attempt count
(`none` = unlimited); the sequence terminates once the configured attempt
count is reached. -/
def budgetExhausted (attempts : Nat) (max_times : Option Nat) : Bool :=
  match max_times with
  | none => false
  | some m => m ≤ attempts

/-- Modelled from the spec: the constant policy, "fixed delay, optional
jitter (uniform perturbation), optional maximum number of attempts
(`none` = unlimited)". -/
structure ConstantBackoff where
  delay : Nat
  jitter : Bool
  attempts : Nat
  max_times : Option Nat

/-- Modelled from the spec: "every call returns the same base delay
(± jitter) until the optional attempt cap is reached, then returns the
terminal signal".  The pair `u` is the entropy sample for this call. -/
def ConstantBackoff.next (b : ConstantBackoff) (u : Nat × Nat) :
    Option (Nat × ConstantBackoff) :=
  if budgetExhausted b.attempts b.max_times then none
  else
    let emitted := if b.jitter then applyJitter b.delay u.1 u.2 else b.delay
    some (emitted, { b with attempts := b.attempts + 1 })

/-- Modelled from the spec: the exponential policy, "initial delay `d0`,
multiplicative factor `f`, maximum delay cap, optional jitter, optional
maximum attempt count".  `current` is the tracked current delay, starting
at `d0`. -/
structure ExponentialBackoff where
  current : Nat
  factor : Nat
  max_delay : Nat
  jitter : Bool
  attempts : Nat
  max_times : Option Nat

/-- Modelled from the spec: "maintains current delay starting at `d0`;
each call returns current delay (± jitter, capped at max), then multiplies
current delay by factor `f` for the next call.  Terminates after the
configured attempt count, or never if unlimited (the cap alone does not
terminate)". -/
def ExponentialBackoff.next (b : ExponentialBackoff) (u : Nat × Nat) :
    Option (Nat × ExponentialBackoff) :=
  if budgetExhausted b.attempts b.max_times then none
  else
    let computed := min b.current b.max_delay
    let emitted := if b.jitter then applyJitter computed u.1 u.2 else computed
    some (emitted,
      { b with current := b.current * b.factor, attempts := b.attempts + 1 })

/-- Modelled from the spec: a fresh exponential sequence built from the
builder configuration, with the current delay seeded at `d0` and no
attempts consumed. -/
def expInit (d0 f cap : Nat) (jitter : Bool) (mt : Option Nat) :
    ExponentialBackoff :=
  { current := d0, factor := f, max_delay := cap, jitter := jitter,
    attempts := 0, max_times := mt }

/-- Modelled from the spec: the fibonacci policy "maintains last two
delays" (`prev`, `curr`), capped at `max_delay`, with optional jitter and
optional maximum attempt count. -/
structure FibonacciBackoff where
  prev : Nat
  curr : Nat
  max_delay : Nat
  jitter : Bool
  attempts : Nat
  max_times : Option Nat

/-- Modelled from the spec: "returns the next Fibonacci-derived delay,
capped at max, with the same jitter treatment; terminates per attempt
count".  The stored delays are kept capped, and the recurrence
`delay(n) = delay(n-1) + delay(n-2)` capped is realised by advancing
`(prev, curr)` to `(curr, min (prev + curr) cap)`. -/
def FibonacciBackoff.next (b : FibonacciBackoff) (u : Nat × Nat) :
    Option (Nat × FibonacciBackoff) :=
  if budgetExhausted b.attempts b.max_times then none
  else
    let computed := b.curr
    let emitted := if b.jitter then applyJitter computed u.1 u.2 else computed
    some (emitted,
      { b with prev := b.curr, curr := min (b.prev + b.curr) b.max_delay,
               attempts := b.attempts + 1 })

/-- Modelled from the spec: a fresh fibonacci sequence seeded so that
`delay(0) = delay(1) = d0` (capped), i.e. `prev = 0` and `curr = d0`
capped. -/
def fibInit (d0 cap : Nat) (jitter : Bool) (mt : Option Nat) :
    FibonacciBackoff :=
  { prev := 0, curr := min d0 cap, max_delay := cap, jitter := jitter,
    attempts := 0, max_times := mt }

/-- The `n`-th value emitted by a backoff iterator `next` started in state
`s` (`none` when the sequence terminates before producing it). -/
def emitAt {σ : Type} (next : σ → Option (Nat × σ)) : σ → Nat → Option Nat
  | s, 0 => (next s).map Prod.fst
  | s, n + 1 =>
    match next s with
    | none => none
    | some (_, s') => emitAt next s' n

/-- The exponential iterator with jitter disabled (the entropy sample is
irrelevant and fixed at `(0, 0)`). -/
def expStep : ExponentialBackoff → Option (Nat × ExponentialBackoff) :=
  fun b => b.next (0, 0)

/-- The fibonacci iterator with jitter disabled. -/
def fibStep : FibonacciBackoff → Option (Nat × FibonacciBackoff) :=
  fun b => b.next (0, 0)

/-- The capped Fibonacci recurrence stated by the spec:
`delay(0) = delay(1) = d0` and `delay(n) = delay(n-1) + delay(n-2)`,
each capped at the maximum. -/
def fibDelay (d0 cap : Nat) : Nat → Nat
  | 0 => min d0 cap
  | 1 => min d0 cap
  | n + 2 => min (fibDelay d0 cap (n + 1) + fibDelay d0 cap n) cap

/-- The delays emitted from a fibonacci state whose last two (already
capped) delays are `p` and `c`: the capped Fibonacci recurrence seeded by
that state. -/
def fibFrom (cap p c : Nat) : Nat → Nat
  | 0 => c
  | 1 => min (p + c) cap
  | n + 2 => min (fibFrom cap p c (n + 1) + fibFrom cap p c n) cap

/-- The constant iterator with jitter disabled. -/
def constStep : ConstantBackoff → Option (Nat × ConstantBackoff) :=
  fun b => b.next (0, 0)

/-- Modelled from the spec: a fresh constant sequence built from the
builder configuration. -/
def constInit (d : Nat) (jitter : Bool) (mt : Option Nat) : ConstantBackoff :=
  { delay := d, jitter := jitter, attempts := 0, max_times := mt }

/-- The finite list of delays an unjittered exponential state with current
delay `c` and `k` remaining attempts emits before terminating. -/
def expDelays (c f cap : Nat) : Nat → List Nat
  | 0 => []
  | k + 1 => min c cap :: expDelays (c * f) f cap k

/-- The finite list of delays an unjittered fibonacci state with last two
capped delays `p`, `c` and `k` remaining attempts emits before
terminating. -/
def fibDelays (cap p c : Nat) : Nat → List Nat
  | 0 => []
  | k + 1 => c :: fibDelays cap c (min (p + c) cap) k

/-- The observable record of one retry-driver run: how many times the
operation was invoked, how many times the backoff sequence was consulted,
the delays actually slept, the `(error, delay)` pairs passed to the notify
hook, and the final outcome returned to the caller. -/
structure RunLog (E A : Type) where
  invocations : Nat
  consults : Nat
  sleeps : List Nat
  notifies : List (E × Nat)
  result : Except E A


/-- Modelled from the spec: the synchronous retry driver state machine
(spec section 4.2).  `op i` is the outcome of the `i`-th invocation of the
operation, `whenCond` the retry predicate, `next` the backoff sequence.
Each loop iteration: invoke the operation; on success return the value
immediately; on failure, if the predicate rejects return the error with no
backoff consultation and no sleep; otherwise pull the next backoff value —
`none` means exhausted, return the last error; `some d` means notify with
`(error, d)`, sleep `d`, and loop.  `fuel` bounds the number of iterations
the model unfolds (`none` = the loop did not finish within the fuel). -/
def retryRun {σ E A : Type} (next : σ → Option (Nat × σ))
    (op : Nat → Except E A) (whenCond : E → Bool) :
    Nat → σ → Nat → Option (RunLog E A)
  | 0, _, _ => none
  | fuel + 1, s, i =>
    match op i with
    | Except.ok a => some ⟨1, 0, [], [], Except.ok a⟩
    | Except.error e =>
      if whenCond e then
        match next s with
        | none => some ⟨1, 1, [], [], Except.error e⟩
        | some (d, s') =>
          match retryRun next op whenCond fuel s' (i + 1) with
          | none => none
          | some log =>
            some ⟨log.invocations + 1, log.consults + 1, d :: log.sleeps,
                  (e, d) :: log.notifies, log.result⟩
      else some ⟨1, 0, [], [], Except.error e⟩

/-- Outcome of an asynchronous retry-driver run: success, the final
operation error, or cancellation — a distinct terminal condition the
caller can tell apart from an operation failure. -/
inductive AsyncOutcome (E A : Type) where
  | ok : A → AsyncOutcome E A
  | err : E → AsyncOutcome E A
  | cancelled : AsyncOutcome E A


/-- The observable record of one asynchronous retry-driver run. -/
structure AsyncRunLog (E A : Type) where
  invocations : Nat
  sleeps : List Nat
  result : AsyncOutcome E A


/-- Modelled from the spec: the race between the retry sleep and the
cancellation signal.  `cancelAt` is the absolute time at which the signal
fires (`none` = no signal), `t` the elapsed time when the sleep of
duration `d` starts.  The race is won by cancellation exactly when the
signal becomes ready no later than the sleep finishes — on a tie
cancellation takes precedence. -/
def cancelWinsRace (cancelAt : Option Nat) (t d : Nat) : Bool :=
  match cancelAt with
  | none => false
  | some tc => tc ≤ t + d

/-- Modelled from the spec: the asynchronous retry driver (spec section
4.3) — the same state machine as the synchronous one, with an optional
cancellation signal raced against each retry sleep.  Cancellation is
sampled only at the sleep boundary; when it wins the race the loop stops
immediately with the cancellation outcome and the operation is not invoked
again.  `t` is the elapsed time (the sum of completed sleeps). -/
def retryRunCancel {σ E A : Type} (next : σ → Option (Nat × σ))
    (op : Nat → Except E A) (whenCond : E → Bool) (cancelAt : Option Nat) :
    Nat → σ → Nat → Nat → Option (AsyncRunLog E A)
  | 0, _, _, _ => none
  | fuel + 1, s, i, t =>
    match op i with
    | Except.ok a => some ⟨1, [], AsyncOutcome.ok a⟩
    | Except.error e =>
      if whenCond e then
        match next s with
        | none => some ⟨1, [], AsyncOutcome.err e⟩
        | some (d, s') =>
          if cancelWinsRace cancelAt t d then
            some ⟨1, [], AsyncOutcome.cancelled⟩
          else
            match retryRunCancel next op whenCond cancelAt fuel s' (i + 1)
                (t + d) with
            | none => none
            | some log =>
              some ⟨log.invocations + 1, d :: log.sleeps, log.result⟩
      else some ⟨1, [], AsyncOutcome.err e⟩

/-- A user-supplied backoff given by a plain list of durations, iterated
front to back: an arbitrary `Iterator` with `Item = Duration` that is none
of the built-in policies. -/
def listIterNext : List Nat → Option (Nat × List Nat)
  | [] => none
  | d :: rest => some (d, rest)

/-- `Emits next s ds`: started in state `s`, the backoff iterator emits
exactly the delays `ds` and then terminates. -/
inductive Emits {σ : Type} (next : σ → Option (Nat × σ)) : σ → List Nat → Prop
  | nil : ∀ {s}, next s = none → Emits next s []
  | cons : ∀ {s d s' ds}, next s = some (d, s') → Emits next s' ds →
      Emits next s (d :: ds)

lemma applyJitter_le (d num den : Nat) : applyJitter d num den ≤ d := by
  unfold applyJitter
  rcases Nat.eq_zero_or_pos den with h | h
  · subst h
    simp
  · calc d * min num den / den ≤ d * den / den :=
          Nat.div_le_div_right (Nat.mul_le_mul_left d (Nat.min_le_right _ _))
    _ = d := Nat.mul_div_left d h

lemma exp_emitAt_unbounded (f cap : Nat) :
    ∀ (n c a : Nat),
      emitAt expStep ⟨c, f, cap, false, a, none⟩ n = some (min (c * f ^ n) cap)
  | 0, c, a => by
    simp [emitAt, expStep, ExponentialBackoff.next, budgetExhausted]
  | n + 1, c, a => by
    have ih := exp_emitAt_unbounded f cap n (c * f) (a + 1)
    have step : expStep ⟨c, f, cap, false, a, none⟩
        = some (min c cap, ⟨c * f, f, cap, false, a + 1, none⟩) := by
      simp [expStep, ExponentialBackoff.next, budgetExhausted]
    rw [emitAt, step]
    show emitAt expStep ⟨c * f, f, cap, false, a + 1, none⟩ n
        = some (min (c * f ^ (n + 1)) cap)
    rw [ih]
    have : c * f * f ^ n = c * f ^ (n + 1) := by ring
    rw [this]

lemma exp_emitted_mono (d0 f cap : Nat) (hf : 1 ≤ f) (n : Nat) :
    min (d0 * f ^ n) cap ≤ min (d0 * f ^ (n + 1)) cap := by
  have hpow : f ^ n ≤ f ^ (n + 1) := by
    have := Nat.mul_le_mul_left (f ^ n) hf
    simpa [pow_succ] using this
  exact min_le_min (Nat.mul_le_mul_left d0 hpow) (Nat.le_refl cap)

lemma fibFrom_shift (cap p c : Nat) :
    ∀ n, fibFrom cap c (min (p + c) cap) n = fibFrom cap p c (n + 1) := by
  have key : ∀ n,
      fibFrom cap c (min (p + c) cap) n = fibFrom cap p c (n + 1) ∧
      fibFrom cap c (min (p + c) cap) (n + 1) = fibFrom cap p c (n + 2) := by
    intro n
    induction n with
    | zero =>
      refine ⟨rfl, ?_⟩
      show min (c + min (p + c) cap) cap = min (min (p + c) cap + c) cap
      rw [Nat.add_comm]
    | succ n ih =>
      refine ⟨ih.2, ?_⟩
      show min (fibFrom cap c (min (p + c) cap) (n + 1)
              + fibFrom cap c (min (p + c) cap) n) cap
          = min (fibFrom cap p c (n + 2) + fibFrom cap p c (n + 1)) cap
      rw [ih.1, ih.2]
  exact fun n => (key n).1

lemma fib_emitAt_unbounded (cap : Nat) :
    ∀ (n p c a : Nat),
      emitAt fibStep ⟨p, c, cap, false, a, none⟩ n = some (fibFrom cap p c n)
  | 0, p, c, a => by
    simp [emitAt, fibStep, FibonacciBackoff.next, budgetExhausted, fibFrom]
  | n + 1, p, c, a => by
    have step : fibStep ⟨p, c, cap, false, a, none⟩
        = some (c, ⟨c, min (p + c) cap, cap, false, a + 1, none⟩) := by
      simp [fibStep, FibonacciBackoff.next, budgetExhausted]
    rw [emitAt, step]
    show emitAt fibStep ⟨c, min (p + c) cap, cap, false, a + 1, none⟩ n
        = some (fibFrom cap p c (n + 1))
    rw [fib_emitAt_unbounded cap n c (min (p + c) cap) (a + 1), fibFrom_shift]

lemma fibFrom_init (d0 cap : Nat) :
    ∀ n, fibFrom cap 0 (min d0 cap) n = fibDelay d0 cap n := by
  have key : ∀ n,
      fibFrom cap 0 (min d0 cap) n = fibDelay d0 cap n ∧
      fibFrom cap 0 (min d0 cap) (n + 1) = fibDelay d0 cap (n + 1) := by
    intro n
    induction n with
    | zero =>
      refine ⟨rfl, ?_⟩
      show min (0 + min d0 cap) cap = min d0 cap
      omega
    | succ n ih =>
      refine ⟨ih.2, ?_⟩
      show min (fibFrom cap 0 (min d0 cap) (n + 1)
              + fibFrom cap 0 (min d0 cap) n) cap
          = min (fibDelay d0 cap (n + 1) + fibDelay d0 cap n) cap
      rw [ih.1, ih.2]
  exact fun n => (key n).1

/-- Claim C1: for the exponential policy with initial delay `d0`, factor
`f` and delay cap `cap`, the `n`-th unjittered emitted delay equals
`min (d0 * f ^ n) cap`; absent jitter the emitted sequence is monotonically
non-decreasing (for a factor of at least one); and for
`d0 = 100ms, factor = 2, cap = 1s, max_attempts = 5` the unjittered delays
are exactly `100ms, 200ms, 400ms, 800ms, 1s` (in milliseconds) and the
sequence then terminates. -/
theorem C1_exponential_closed_form (d0 f cap : Nat) :
    (∀ n, emitAt expStep (expInit d0 f cap false none) n
        = some (min (d0 * f ^ n) cap)) ∧
    (1 ≤ f → ∀ n x y,
        emitAt expStep (expInit d0 f cap false none) n = some x →
        emitAt expStep (expInit d0 f cap false none) (n + 1) = some y →
        x ≤ y) ∧
    ((emitAt expStep (expInit 100 2 1000 false (some 5)) 0,
      emitAt expStep (expInit 100 2 1000 false (some 5)) 1,
      emitAt expStep (expInit 100 2 1000 false (some 5)) 2,
      emitAt expStep (expInit 100 2 1000 false (some 5)) 3,
      emitAt expStep (expInit 100 2 1000 false (some 5)) 4)
        = (some 100, some 200, some 400, some 800, some 1000) ∧
      emitAt expStep (expInit 100 2 1000 false (some 5)) 5 = none) := by
  refine ⟨fun n => exp_emitAt_unbounded f cap n d0 0, ?_, by decide, by decide⟩
  intro hf n x y hx hy
  simp only [expInit] at hx hy
  rw [exp_emitAt_unbounded f cap n d0 0] at hx
  rw [exp_emitAt_unbounded f cap (n + 1) d0 0] at hy
  cases hx
  cases hy
  exact exp_emitted_mono d0 f cap hf n

/-- Witness for C1 at `d0 = 100, f = 2, cap = 1000`: the monotonicity
conjunct applied at step 0 yields `100 ≤ 200`. -/
theorem C1_exponential_closed_form_witness : (100 : Nat) ≤ 200 :=
  (C1_exponential_closed_form 100 2 1000).2.1 (by decide) 0 100 200
    (by decide) (by decide)

/-- Claim C3: for the fibonacci policy with initial delay `d0` and maximum
delay `cap`, the unjittered emitted delays follow the capped Fibonacci
recurrence: `delay(0) = delay(1) = d0` (when `d0 ≤ cap`) and
`delay(n+2) = delay(n+1) + delay(n)` capped at the maximum; in particular
for `d0 = 1s` the unjittered sequence starts `1s, 1s, 2s, 3s, 5s, 8s`
(capped at the configured max, here `60s`). -/
theorem C3_fibonacci_recurrence (d0 cap : Nat) :
    (∀ n, emitAt fibStep (fibInit d0 cap false none) n
        = some (fibDelay d0 cap n)) ∧
    (d0 ≤ cap → fibDelay d0 cap 0 = d0 ∧ fibDelay d0 cap 1 = d0) ∧
    (∀ n, fibDelay d0 cap (n + 2)
        = min (fibDelay d0 cap (n + 1) + fibDelay d0 cap n) cap) ∧
    ((emitAt fibStep (fibInit 1 60 false none) 0,
      emitAt fibStep (fibInit 1 60 false none) 1,
      emitAt fibStep (fibInit 1 60 false none) 2,
      emitAt fibStep (fibInit 1 60 false none) 3,
      emitAt fibStep (fibInit 1 60 false none) 4,
      emitAt fibStep (fibInit 1 60 false none) 5)
        = (some 1, some 1, some 2, some 3, some 5, some 8)) := by
  refine ⟨?_, ?_, fun n => rfl, by decide⟩
  · intro n
    have h := fib_emitAt_unbounded cap n 0 (min d0 cap) 0
    rw [fibFrom_init d0 cap n] at h
    exact h
  · intro hle
    constructor <;> simp [fibDelay, Nat.min_eq_left hle]

/-- Witness for C3 at `d0 = 1, cap = 60`: the seed conjunct applied with
`1 ≤ 60` yields both seed delays equal to `1`. -/
theorem C3_fibonacci_recurrence_witness :
    fibDelay 1 60 0 = 1 ∧ fibDelay 1 60 1 = 1 :=
  (C3_fibonacci_recurrence 1 60).2.1 (by decide)

/-- Claim C2: with jitter enabled, for every step of every policy the
emitted delay `d'` satisfies `0 ≤ d' ≤ d`, where `d` is the unjittered
computed delay the same state would emit for that step: the jittered delay
never exceeds the computed value. -/
theorem C2_jitter_within_computed :
    (∀ (b : ConstantBackoff) (u : Nat × Nat) (d' : Nat) (b2 : ConstantBackoff),
        b.jitter = true → ConstantBackoff.next b u = some (d', b2) →
        ∃ d b3,
          ConstantBackoff.next { b with jitter := false } u = some (d, b3) ∧
          0 ≤ d' ∧ d' ≤ d) ∧
    (∀ (b : ExponentialBackoff) (u : Nat × Nat) (d' : Nat)
        (b2 : ExponentialBackoff),
        b.jitter = true → ExponentialBackoff.next b u = some (d', b2) →
        ∃ d b3,
          ExponentialBackoff.next { b with jitter := false } u = some (d, b3) ∧
          0 ≤ d' ∧ d' ≤ d) ∧
    (∀ (b : FibonacciBackoff) (u : Nat × Nat) (d' : Nat)
        (b2 : FibonacciBackoff),
        b.jitter = true → FibonacciBackoff.next b u = some (d', b2) →
        ∃ d b3,
          FibonacciBackoff.next { b with jitter := false } u = some (d, b3) ∧
          0 ≤ d' ∧ d' ≤ d) := by
  refine ⟨?_, ?_, ?_⟩
  · intro b u d' b2 hj h
    by_cases hb : budgetExhausted b.attempts b.max_times
    · simp [ConstantBackoff.next, hb] at h
    · refine ⟨b.delay, { b with jitter := false, attempts := b.attempts + 1 },
        ?_, Nat.zero_le _, ?_⟩
      · simp [ConstantBackoff.next, hb]
      · simp [ConstantBackoff.next, hb, hj] at h
        rw [← h.1]
        exact applyJitter_le _ _ _
  · intro b u d' b2 hj h
    by_cases hb : budgetExhausted b.attempts b.max_times
    · simp [ExponentialBackoff.next, hb] at h
    · refine ⟨min b.current b.max_delay,
        { b with jitter := false, current := b.current * b.factor,
                 attempts := b.attempts + 1 },
        ?_, Nat.zero_le _, ?_⟩
      · simp [ExponentialBackoff.next, hb]
      · simp [ExponentialBackoff.next, hb, hj] at h
        rw [← h.1]
        exact applyJitter_le _ _ _
  · intro b u d' b2 hj h
    by_cases hb : budgetExhausted b.attempts b.max_times
    · simp [FibonacciBackoff.next, hb] at h
    · refine ⟨b.curr,
        { b with jitter := false, prev := b.curr,
                 curr := min (b.prev + b.curr) b.max_delay,
                 attempts := b.attempts + 1 },
        ?_, Nat.zero_le _, ?_⟩
      · simp [FibonacciBackoff.next, hb]
      · simp [FibonacciBackoff.next, hb, hj] at h
        rw [← h.1]
        exact applyJitter_le _ _ _

/-- Witness for C2: the exponential conjunct applied to the jittered state
`current = 8, cap = 10` with entropy sample `(1, 2)` (multiplier one half)
emits `4`, bounded by the computed delay `8`. -/
theorem C2_jitter_within_computed_witness :
    ∃ d b3,
      ExponentialBackoff.next
          { (⟨8, 2, 10, true, 0, none⟩ : ExponentialBackoff) with
            jitter := false } (1, 2) = some (d, b3) ∧
      0 ≤ 4 ∧ 4 ≤ d :=
  C2_jitter_within_computed.2.1 ⟨8, 2, 10, true, 0, none⟩ (1, 2) 4
    ⟨16, 2, 10, true, 1, none⟩ rfl rfl

lemma retryRun_step_ok {σ E A : Type} {next : σ → Option (Nat × σ)}
    {op : Nat → Except E A} {whenCond : E → Bool} {fuel : Nat} {s : σ}
    {i : Nat} {a : A} (hop : op i = Except.ok a) :
    retryRun next op whenCond (fuel + 1) s i
      = some ⟨1, 0, [], [], Except.ok a⟩ := by
  rw [retryRun, hop]

lemma retryRun_step_rej {σ E A : Type} {next : σ → Option (Nat × σ)}
    {op : Nat → Except E A} {whenCond : E → Bool} {fuel : Nat} {s : σ}
    {i : Nat} {e : E} (hop : op i = Except.error e)
    (hrej : whenCond e = false) :
    retryRun next op whenCond (fuel + 1) s i
      = some ⟨1, 0, [], [], Except.error e⟩ := by
  rw [retryRun, hop]
  simp [hrej]

lemma retryRun_step_exhausted {σ E A : Type} {next : σ → Option (Nat × σ)}
    {op : Nat → Except E A} {whenCond : E → Bool} {fuel : Nat} {s : σ}
    {i : Nat} {e : E} (hop : op i = Except.error e) (hacc : whenCond e = true)
    (hnone : next s = none) :
    retryRun next op whenCond (fuel + 1) s i
      = some ⟨1, 1, [], [], Except.error e⟩ := by
  rw [retryRun, hop]
  simp [hacc, hnone]

lemma retryRun_step_sleep {σ E A : Type} {next : σ → Option (Nat × σ)}
    {op : Nat → Except E A} {whenCond : E → Bool} {fuel : Nat} {s s' : σ}
    {i d : Nat} {e : E} {log : RunLog E A} (hop : op i = Except.error e)
    (hacc : whenCond e = true) (hstep : next s = some (d, s'))
    (hrec : retryRun next op whenCond fuel s' (i + 1) = some log) :
    retryRun next op whenCond (fuel + 1) s i
      = some ⟨log.invocations + 1, log.consults + 1, d :: log.sleeps,
              (e, d) :: log.notifies, log.result⟩ := by
  rw [retryRun, hop]
  simp [hacc, hstep, hrec]

lemma retryRun_allFail {σ E A : Type} (next : σ → Option (Nat × σ))
    (e : Nat → E) (whenCond : E → Bool) (hw : ∀ j, whenCond (e j) = true) :
    ∀ (ds : List Nat) (s : σ) (i fuel : Nat), Emits next s ds →
      ds.length < fuel →
      retryRun next (fun j => (Except.error (e j) : Except E A)) whenCond
          fuel s i
        = some ⟨ds.length + 1, ds.length + 1, ds,
                List.zipWith (fun j d => (e j, d)) (List.range' i ds.length) ds,
                Except.error (e (i + ds.length))⟩ := by
  intro ds
  induction ds with
  | nil =>
    intro s i fuel hem hfuel
    cases hem with
    | nil hnone =>
      cases fuel with
      | zero => omega
      | succ m =>
        have hx := @retryRun_step_exhausted σ E A next
            (fun j => (Except.error (e j) : Except E A)) whenCond m s i (e i)
            rfl (hw i) hnone
        rw [hx]
        simp
  | cons d ds ih =>
    intro s i fuel hem hfuel
    obtain ⟨s', hstep, hrest⟩ :
        ∃ t, next s = some (d, t) ∧ Emits next t ds := by
      cases hem with
      | cons h1 h2 => exact ⟨_, h1, h2⟩
    cases fuel with
    | zero => omega
    | succ m =>
      have hm : ds.length < m := by
        simpa using hfuel
      have hrec := ih s' (i + 1) m hrest hm
      have hy := @retryRun_step_sleep σ E A next
          (fun j => (Except.error (e j) : Except E A)) whenCond m s s' i d
          (e i) _ rfl (hw i) hstep hrec
      rw [hy]
      have harith : i + 1 + ds.length = i + (ds.length + 1) := by omega
      simp only [List.length_cons, List.range'_succ, List.zipWith_cons_cons,
        harith]

lemma expDelays_length (f cap : Nat) :
    ∀ (k c : Nat), (expDelays c f cap k).length = k
  | 0, c => rfl
  | k + 1, c => by
    simp [expDelays, expDelays_length f cap k (c * f)]

lemma fibDelays_length (cap : Nat) :
    ∀ (k p c : Nat), (fibDelays cap p c k).length = k
  | 0, p, c => rfl
  | k + 1, p, c => by
    simp [fibDelays, fibDelays_length cap k c (min (p + c) cap)]

lemma const_emits_bounded (d : Nat) :
    ∀ (k a : Nat),
      Emits constStep ⟨d, false, a, some (a + k)⟩ (List.replicate k d)
  | 0, a =>
    Emits.nil (by simp [constStep, ConstantBackoff.next, budgetExhausted])
  | k + 1, a => by
    have hnext : constStep ⟨d, false, a, some (a + (k + 1))⟩
        = some (d, ⟨d, false, a + 1, some (a + (k + 1))⟩) := by
      simp [constStep, ConstantBackoff.next, budgetExhausted]
    have h := const_emits_bounded d k (a + 1)
    have harith : a + 1 + k = a + (k + 1) := by omega
    rw [harith] at h
    exact Emits.cons hnext h

lemma exp_emits_bounded (f cap : Nat) :
    ∀ (k c a : Nat),
      Emits expStep ⟨c, f, cap, false, a, some (a + k)⟩ (expDelays c f cap k)
  | 0, c, a =>
    Emits.nil (by simp [expStep, ExponentialBackoff.next, budgetExhausted])
  | k + 1, c, a => by
    have hnext : expStep ⟨c, f, cap, false, a, some (a + (k + 1))⟩
        = some (min c cap, ⟨c * f, f, cap, false, a + 1, some (a + (k + 1))⟩)
        := by
      simp [expStep, ExponentialBackoff.next, budgetExhausted]
    have h := exp_emits_bounded f cap k (c * f) (a + 1)
    have harith : a + 1 + k = a + (k + 1) := by omega
    rw [harith] at h
    exact Emits.cons hnext h

lemma fib_emits_bounded (cap : Nat) :
    ∀ (k p c a : Nat),
      Emits fibStep ⟨p, c, cap, false, a, some (a + k)⟩ (fibDelays cap p c k)
  | 0, p, c, a =>
    Emits.nil (by simp [fibStep, FibonacciBackoff.next, budgetExhausted])
  | k + 1, p, c, a => by
    have hnext : fibStep ⟨p, c, cap, false, a, some (a + (k + 1))⟩
        = some (c, ⟨c, min (p + c) cap, cap, false, a + 1,
                    some (a + (k + 1))⟩) := by
      simp [fibStep, FibonacciBackoff.next, budgetExhausted]
    have h := fib_emits_bounded cap k c (min (p + c) cap) (a + 1)
    have harith : a + 1 + k = a + (k + 1) := by omega
    rw [harith] at h
    exact Emits.cons hnext h

lemma retryRun_step_sleep_none {σ E A : Type} {next : σ → Option (Nat × σ)}
    {op : Nat → Except E A} {whenCond : E → Bool} {fuel : Nat} {s s' : σ}
    {i d : Nat} {e : E} (hop : op i = Except.error e)
    (hacc : whenCond e = true) (hstep : next s = some (d, s'))
    (hrec : retryRun next op whenCond fuel s' (i + 1) = none) :
    retryRun next op whenCond (fuel + 1) s i = none := by
  rw [retryRun, hop]
  simp [hacc, hstep, hrec]

lemma retryRun_successAfter {σ E A : Type} (next : σ → Option (Nat × σ))
    (op : Nat → Except E A) (whenCond : E → Bool) :
    ∀ (m : Nat) (ds : List Nat) (s : σ) (i : Nat) (a : A),
      Emits next s ds → m ≤ ds.length →
      (∀ j, j < m → ∃ err, op (i + j) = Except.error err ∧
          whenCond err = true) →
      op (i + m) = Except.ok a →
      ∃ log : RunLog E A,
        retryRun next op whenCond (m + 1) s i = some log ∧
        log.invocations = m + 1 ∧ log.consults = m ∧
        log.sleeps = List.take m ds ∧ log.result = Except.ok a := by
  intro m
  induction m with
  | zero =>
    intro ds s i a hem hle hfail hok
    rw [Nat.add_zero] at hok
    exact ⟨⟨1, 0, [], [], Except.ok a⟩, retryRun_step_ok hok, rfl, rfl,
      by simp, rfl⟩
  | succ m ih =>
    intro ds s i a hem hle hfail hok
    cases ds with
    | nil =>
      exact absurd hle (by simp)
    | cons d ds' =>
      obtain ⟨s', hstep, hrest⟩ :
          ∃ t, next s = some (d, t) ∧ Emits next t ds' := by
        cases hem with
        | cons h1 h2 => exact ⟨_, h1, h2⟩
      obtain ⟨err, hoperr, haccept⟩ := hfail 0 (Nat.succ_pos m)
      rw [Nat.add_zero] at hoperr
      have hfail2 : ∀ j, j < m → ∃ e2, op (i + 1 + j) = Except.error e2 ∧
          whenCond e2 = true := by
        intro j hj
        obtain ⟨e2, h1, h2⟩ := hfail (j + 1) (by omega)
        have harith : i + (j + 1) = i + 1 + j := by omega
        rw [harith] at h1
        exact ⟨e2, h1, h2⟩
      have hok2 : op (i + 1 + m) = Except.ok a := by
        have harith : i + 1 + m = i + (m + 1) := by omega
        rw [harith]
        exact hok
      have hle2 : m ≤ ds'.length := by
        simpa using hle
      obtain ⟨log, hrun, hinv, hcons, hsleeps, hres⟩ :=
        ih ds' s' (i + 1) a hrest hle2 hfail2 hok2
      refine ⟨⟨log.invocations + 1, log.consults + 1, d :: log.sleeps,
        (err, d) :: log.notifies, log.result⟩,
        retryRun_step_sleep hoperr haccept hstep hrun, ?_, ?_, ?_, ?_⟩
      · simp [hinv]
      · simp [hcons]
      · simp [hsleeps, List.take_succ_cons]
      · simpa using hres

lemma retryRun_error_sources {σ E A : Type} (next : σ → Option (Nat × σ))
    (op : Nat → Except E A) (whenCond : E → Bool) :
    ∀ (fuel : Nat) (s : σ) (i : Nat) (log : RunLog E A),
      retryRun next op whenCond fuel s i = some log →
      ∀ ε, log.result = Except.error ε →
      ∃ j, i ≤ j ∧ op j = Except.error ε := by
  intro fuel
  induction fuel with
  | zero =>
    intro s i log h
    simp [retryRun] at h
  | succ m ih =>
    intro s i log h ε hres
    cases hop : op i with
    | ok a =>
      rw [retryRun_step_ok hop] at h
      cases h
      simp at hres
    | error e0 =>
      cases hacc : whenCond e0 with
      | false =>
        rw [retryRun_step_rej hop hacc] at h
        cases h
        simp at hres
        exact ⟨i, Nat.le_refl i, by rw [hop, hres]⟩
      | true =>
        cases hnext : next s with
        | none =>
          rw [retryRun_step_exhausted hop hacc hnext] at h
          cases h
          simp at hres
          exact ⟨i, Nat.le_refl i, by rw [hop, hres]⟩
        | some p =>
          obtain ⟨d, s'⟩ := p
          cases hrec : retryRun next op whenCond m s' (i + 1) with
          | none =>
            rw [retryRun_step_sleep_none hop hacc hnext hrec] at h
            cases h
          | some log2 =>
            rw [retryRun_step_sleep hop hacc hnext hrec] at h
            cases h
            obtain ⟨j, hij, hj⟩ := ih s' (i + 1) log2 hrec ε (by simpa using hres)
            exact ⟨j, by omega, hj⟩

lemma retryRun_notifies_match_sleeps {σ E A : Type}
    (next : σ → Option (Nat × σ)) (op : Nat → Except E A)
    (whenCond : E → Bool) :
    ∀ (fuel : Nat) (s : σ) (i : Nat) (log : RunLog E A),
      retryRun next op whenCond fuel s i = some log →
      log.notifies.map Prod.snd = log.sleeps := by
  intro fuel
  induction fuel with
  | zero =>
    intro s i log h
    simp [retryRun] at h
  | succ m ih =>
    intro s i log h
    cases hop : op i with
    | ok a =>
      rw [retryRun_step_ok hop] at h
      cases h
      simp
    | error e0 =>
      cases hacc : whenCond e0 with
      | false =>
        rw [retryRun_step_rej hop hacc] at h
        cases h
        simp
      | true =>
        cases hnext : next s with
        | none =>
          rw [retryRun_step_exhausted hop hacc hnext] at h
          cases h
          simp
        | some p =>
          obtain ⟨d, s'⟩ := p
          cases hrec : retryRun next op whenCond m s' (i + 1) with
          | none =>
            rw [retryRun_step_sleep_none hop hacc hnext hrec] at h
            cases h
          | some log2 =>
            rw [retryRun_step_sleep hop hacc hnext hrec] at h
            cases h
            have := ih s' (i + 1) log2 hrec
            simpa using this

/-- Claim C4: for a retry-driver run over each built-in backoff policy
configured with `max_attempts = N` and an operation that keeps failing
with errors the (always-accepting) predicate accepts, the operation is
invoked at most `N + 1` times — here exactly `N + 1` — and the
`(N + 1)`-th failure (`e N`, attempts counted from `0`) is returned to the
caller with exactly `N` sleeps performed, so no further sleep follows the
final failure. -/
theorem C4_attempt_budget {E A : Type} (N : Nat) (e : Nat → E)
    (d d0 f cap : Nat) :
    (∃ log : RunLog E A,
       retryRun constStep (fun j => Except.error (e j)) (fun _ => true)
           (N + 1) (constInit d false (some N)) 0 = some log ∧
       log.invocations = N + 1 ∧ log.sleeps.length = N ∧
       log.result = Except.error (e N)) ∧
    (∃ log : RunLog E A,
       retryRun expStep (fun j => Except.error (e j)) (fun _ => true)
           (N + 1) (expInit d0 f cap false (some N)) 0 = some log ∧
       log.invocations = N + 1 ∧ log.sleeps.length = N ∧
       log.result = Except.error (e N)) ∧
    (∃ log : RunLog E A,
       retryRun fibStep (fun j => Except.error (e j)) (fun _ => true)
           (N + 1) (fibInit d0 cap false (some N)) 0 = some log ∧
       log.invocations = N + 1 ∧ log.sleeps.length = N ∧
       log.result = Except.error (e N)) := by
  refine ⟨?_, ?_, ?_⟩
  · have hem := const_emits_bounded d N 0
    rw [Nat.zero_add] at hem
    have hrun := @retryRun_allFail ConstantBackoff E A constStep e
        (fun _ => true) (fun j => rfl)
        (List.replicate N d) (constInit d false (some N)) 0 (N + 1) hem
        (by rw [List.length_replicate]; omega)
    refine ⟨_, hrun, ?_, ?_, ?_⟩ <;> simp
  · have hem := exp_emits_bounded f cap N d0 0
    rw [Nat.zero_add] at hem
    have hrun := @retryRun_allFail ExponentialBackoff E A expStep e
        (fun _ => true) (fun j => rfl)
        (expDelays d0 f cap N) (expInit d0 f cap false (some N)) 0 (N + 1) hem
        (by rw [expDelays_length]; omega)
    refine ⟨_, hrun, ?_, ?_, ?_⟩ <;> simp [expDelays_length]
  · have hem := fib_emits_bounded cap N 0 (min d0 cap) 0
    rw [Nat.zero_add] at hem
    have hrun := @retryRun_allFail FibonacciBackoff E A fibStep e
        (fun _ => true) (fun j => rfl)
        (fibDelays cap 0 (min d0 cap) N) (fibInit d0 cap false (some N)) 0
        (N + 1) hem (by rw [fibDelays_length]; omega)
    refine ⟨_, hrun, ?_, ?_, ?_⟩ <;> simp [fibDelays_length]

/-- Claim C5: whenever the retry predicate rejects the error of the
current attempt, that very error is returned to the caller immediately:
the operation is invoked exactly once more (this attempt), the backoff
sequence is not consulted (`consults = 0`), no sleep occurs and the notify
hook does not fire.  Applied at the initial state this is the
predicate-rejects-the-first-error case. -/
theorem C5_predicate_rejection {σ E A : Type} (next : σ → Option (Nat × σ))
    (op : Nat → Except E A) (whenCond : E → Bool) (fuel : Nat) (s : σ)
    (i : Nat) (e0 : E) (hop : op i = Except.error e0)
    (hrej : whenCond e0 = false) :
    retryRun next op whenCond (fuel + 1) s i
      = some ⟨1, 0, [], [], Except.error e0⟩ :=
  retryRun_step_rej hop hrej

/-- Witness for C5: an operation failing with error `7` and a predicate
that rejects everything — the driver returns error `7` after one
invocation, zero backoff consultations and no sleep. -/
theorem C5_predicate_rejection_witness :
    retryRun listIterNext (fun _ => (Except.error 7 : Except Nat Unit))
        (fun _ => false) 1 [3, 4] 0
      = some ⟨1, 0, [], [], Except.error 7⟩ :=
  C5_predicate_rejection listIterNext (fun _ => Except.error 7)
    (fun _ => false) 0 [3, 4] 0 7 rfl rfl

/-- Claim C6: on every completed retry-driver run, the notify hook fired
exactly once per sleep performed — the recorded notify delays are exactly
the sleeps, and in particular the counts agree — so it never fires on the
terminal unretried failure (notify count = sleep count, not failure
count). -/
theorem C6_notify_once_per_sleep {σ E A : Type}
    (next : σ → Option (Nat × σ)) (op : Nat → Except E A)
    (whenCond : E → Bool) (fuel : Nat) (s : σ) (i : Nat) (log : RunLog E A)
    (h : retryRun next op whenCond fuel s i = some log) :
    log.notifies.length = log.sleeps.length ∧
    log.notifies.map Prod.snd = log.sleeps := by
  have hmap := retryRun_notifies_match_sleeps next op whenCond fuel s i log h
  constructor
  · rw [← hmap]
    simp
  · exact hmap

/-- Witness for C6: a run with one sleep (delay `3` after error `0`) and a
terminal failure (error `1` on backoff exhaustion): one notify, one
sleep. -/
theorem C6_notify_once_per_sleep_witness :
    ([((0 : Nat), (3 : Nat))].length = [(3 : Nat)].length) ∧
    ([((0 : Nat), (3 : Nat))].map Prod.snd = [(3 : Nat)]) := by
  have h := C6_notify_once_per_sleep listIterNext
      (fun j => if j = 0 then (Except.error 0 : Except Nat Unit)
                else Except.error 1)
      (fun _ => true) 2 [3] 0 ⟨2, 2, [3], [(0, 3)], Except.error 1⟩ rfl
  exact h

/-- Claim C7: if the operation succeeds on attempt `k` (the first `k - 1`
invocations fail with accepted errors and the `k`-th returns a value), the
driver invokes the operation exactly `k` times, consults the backoff
sequence at most `k - 1` times (here exactly `k - 1`), and returns the
success value. -/
theorem C7_early_success {σ E A : Type} (next : σ → Option (Nat × σ))
    (op : Nat → Except E A) (whenCond : E → Bool) (k : Nat) (ds : List Nat)
    (s : σ) (a : A) (hk : 1 ≤ k) (hem : Emits next s ds)
    (hlen : k - 1 ≤ ds.length)
    (hfail : ∀ j, j < k - 1 → ∃ err, op j = Except.error err ∧
        whenCond err = true)
    (hok : op (k - 1) = Except.ok a) :
    ∃ log : RunLog E A,
      retryRun next op whenCond k s 0 = some log ∧
      log.invocations = k ∧ log.consults ≤ k - 1 ∧
      log.result = Except.ok a := by
  obtain ⟨log, hrun, hinv, hcons, hsl, hres⟩ :=
    retryRun_successAfter next op whenCond (k - 1) ds s 0 a hem hlen
      (by intro j hj; simpa using hfail j hj) (by simpa using hok)
  have hfuel : k - 1 + 1 = k := by omega
  rw [hfuel] at hrun
  refine ⟨log, hrun, by omega, by omega, hres⟩

/-- Witness for C7: the operation fails once then succeeds on attempt 2
over a single-delay list backoff: two invocations, one consultation,
success returned. -/
theorem C7_early_success_witness :
    ∃ log : RunLog Nat Nat,
      retryRun listIterNext
          (fun j => if j = 0 then Except.error 9 else Except.ok 42)
          (fun _ => true) 2 [7] 0 = some log ∧
      log.invocations = 2 ∧ log.consults ≤ 1 ∧
      log.result = Except.ok 42 :=
  C7_early_success listIterNext
    (fun j => if j = 0 then Except.error 9 else Except.ok 42)
    (fun _ => true) 2 [7] [7] 42 (by decide)
    (Emits.cons rfl (Emits.nil rfl)) (by decide)
    (fun j hj => ⟨9, by simp [show j = 0 by omega], rfl⟩) rfl

/-- Claim C8: when the backoff sequence is exhausted (`next` returns
`none`), the driver returns the last observed operation error unchanged,
with no extra sleep; and on any completed run, any error the driver
returns is verbatim an error produced by some invocation of the operation
— exhaustion is not a distinct error type and the core never swallows or
transforms operation errors. -/
theorem C8_exhaustion_last_error {σ E A : Type}
    (next : σ → Option (Nat × σ)) (op : Nat → Except E A)
    (whenCond : E → Bool) (fuel : Nat) (s : σ) (i : Nat) (e0 : E)
    (hop : op i = Except.error e0) (hacc : whenCond e0 = true)
    (hnone : next s = none) :
    retryRun next op whenCond (fuel + 1) s i
      = some ⟨1, 1, [], [], Except.error e0⟩ ∧
    (∀ (fuel2 : Nat) (s2 : σ) (i2 : Nat) (log : RunLog E A) (ε : E),
      retryRun next op whenCond fuel2 s2 i2 = some log →
      log.result = Except.error ε →
      ∃ j, i2 ≤ j ∧ op j = Except.error ε) :=
  ⟨retryRun_step_exhausted hop hacc hnone,
   fun fuel2 s2 i2 log ε h1 h2 =>
     retryRun_error_sources next op whenCond fuel2 s2 i2 log h1 ε h2⟩

/-- Witness for C8: an exhausted (empty) backoff surfaces the operation's
error `5` unchanged after a single invocation and consultation. -/
theorem C8_exhaustion_last_error_witness :
    retryRun listIterNext (fun _ => (Except.error 5 : Except Nat Unit))
        (fun _ => true) 1 [] 0
      = some ⟨1, 1, [], [], Except.error 5⟩ ∧
    (∀ (fuel2 : Nat) (s2 : List Nat) (i2 : Nat) (log : RunLog Nat Unit)
        (ε : Nat),
      retryRun listIterNext (fun _ => (Except.error 5 : Except Nat Unit))
          (fun _ => true) fuel2 s2 i2 = some log →
      log.result = Except.error ε →
      ∃ j, i2 ≤ j ∧
        (fun _ => (Except.error 5 : Except Nat Unit)) j
          = Except.error ε) :=
  C8_exhaustion_last_error listIterNext
    (fun _ => (Except.error 5 : Except Nat Unit)) (fun _ => true) 0 [] 0 5
    rfl rfl rfl

/-- Claim C9: in the asynchronous driver with a cancellation signal, if at
a retry sleep of duration `d` the signal fires strictly before the delay
elapses — or exactly when it elapses, the tie going to cancellation — the
loop stops immediately with the cancellation outcome: the operation is not
invoked again (exactly one invocation is recorded for this step) and no
further sleep completes. -/
theorem C9_cancellation_race {σ E A : Type} (next : σ → Option (Nat × σ))
    (op : Nat → Except E A) (whenCond : E → Bool) (fuel : Nat) (s s' : σ)
    (i t tc d : Nat) (e0 : E) (hop : op i = Except.error e0)
    (hacc : whenCond e0 = true) (hstep : next s = some (d, s'))
    (hrace : tc < t + d ∨ tc = t + d) :
    retryRunCancel next op whenCond (some tc) (fuel + 1) s i t
      = some ⟨1, [], AsyncOutcome.cancelled⟩ := by
  have hle : tc ≤ t + d := by omega
  rw [retryRunCancel, hop]
  simp [hacc, hstep, cancelWinsRace, hle]

/-- Witness for C9: the signal fires at absolute time `2`, strictly before
the pending sleep of duration `4` (started at elapsed time `0`) finishes:
the run is cancelled after the single failed invocation. -/
theorem C9_cancellation_race_witness :
    retryRunCancel listIterNext
        (fun _ => (Except.error 1 : Except Nat Unit)) (fun _ => true)
        (some 2) 3 [4, 4] 0 0
      = some ⟨1, [], AsyncOutcome.cancelled⟩ :=
  C9_cancellation_race listIterNext (fun _ => Except.error 1)
    (fun _ => true) 2 [4, 4] [4] 0 0 2 4 1 rfl rfl rfl (by omega)

/-- Claim C10: the backoff capability at the driver interface is exactly
"an iterator of durations": for every state type `σ` and every iterator
`next : σ → Option (Nat × σ)` over it — not only the built-in constant,
exponential and fibonacci policies — the retry driver accepts it, sleeps
exactly the delays it emits, and treats `next` returning `none` as
exhaustion, stopping with the last error. -/
theorem C10_any_iterator_is_a_backoff {σ E A : Type}
    (next : σ → Option (Nat × σ)) (e : Nat → E) (ds : List Nat) (s : σ)
    (hem : Emits next s ds) :
    ∃ log : RunLog E A,
      retryRun next (fun j => Except.error (e j)) (fun _ => true)
          (ds.length + 1) s 0 = some log ∧
      log.sleeps = ds ∧ log.invocations = ds.length + 1 ∧
      log.consults = ds.length + 1 ∧
      log.result = Except.error (e ds.length) := by
  have h := @retryRun_allFail σ E A next e (fun _ => true) (fun j => rfl)
      ds s 0 (ds.length + 1) hem (Nat.lt_succ_self _)
  exact ⟨_, h, rfl, rfl, rfl, by simp⟩

/-- Witness for C10: a plain two-element list `[2, 9]` used directly as
the backoff iterator drives the loop through both delays and stops with
the third error. -/
theorem C10_any_iterator_is_a_backoff_witness :
    ∃ log : RunLog Nat Unit,
      retryRun listIterNext (fun j => Except.error j) (fun _ => true)
          ([2, 9].length + 1) [2, 9] 0 = some log ∧
      log.sleeps = [2, 9] ∧ log.invocations = [2, 9].length + 1 ∧
      log.consults = [2, 9].length + 1 ∧
      log.result = Except.error [2, 9].length :=
  C10_any_iterator_is_a_backoff listIterNext (fun j => j) [2, 9] [2, 9]
    (Emits.cons rfl (Emits.cons rfl (Emits.nil rfl)))
